import Mathlib

/-!
Helmlet: value tree, deep merge and dotted-path overrides.

A shallow embedding of the value handling of `main.go`:

* `mergeValues`      (main.go 154-166), the deep merge of a loaded values file into the root;
* `loadValuesFile`   (main.go 137-152), one load-and-merge step;
* `setNestedValue`   (main.go 331-349), the dotted-path override;
* `parseSetValues`   (main.go 297-329), the parser of the `--set` string, together with the
  part of Go's `encoding/csv` reader and of `strings.Split` / `strings.SplitN` it runs.

Go values of type `interface{}` are modelled by the inductive type `Value`; a Go
`map[string]interface{}` is modelled by `Mapping`, the list of its bindings.  Go maps are
unordered, so the bindings are kept in increasing key order (`insert` puts a binding at
its place): two maps are then equal exactly when they hold the same bindings.  Values are
trees: a map stored in another map is not shared with its origin, as is the case for
freshly decoded files and for override values, which are strings.

Go strings are modelled by Lean strings, sequences of characters.  A function that mutates
a map returns the map after the call; a call that panics returns `none`.  The loops of
the CSV reader carry an iteration bound, shown never to be exhausted
(`parseSetValues_total`).
-/

namespace Helmlet

/-! ## Data model -/

/-- Dynamic key of a Go `map[interface{}]interface{}`, as the YAML decoder produces them. -/
inductive Key where
  | str (s : String)
  | int (i : Int)
  | bool (b : Bool)
  | float (bits : Nat)
  | null
  deriving DecidableEq, Repr

mutual
/-- A Go `interface{}` value found in a values tree.  `null` is the nil interface; `float`
carries the bit pattern of a float64, which nothing here inspects; `smap` is a
`map[string]interface{}` and `imap` a `map[interface{}]interface{}`. -/
inductive Value where
  | null
  | bool (b : Bool)
  | int (i : Int)
  | float (bits : Nat)
  | str (s : String)
  | seq (xs : List Value)
  | smap (m : Mapping)
  | imap (m : List (Key × Value))
/-- A Go `map[string]interface{}`: its bindings, one after the other. -/
inductive Mapping where
  | nil
  | cons (k : String) (v : Value) (rest : Mapping)
end

/-- Strict lexicographic order on character sequences, by code point.  It only fixes the
place of a key among the bindings of a `Mapping`. -/
def ltChars : List Char → List Char → Bool
  | [], [] => false
  | [], _ :: _ => true
  | _ :: _, [] => false
  | a :: as, b :: bs =>
    if a.toNat < b.toNat then true
    else if a.toNat = b.toNat then ltChars as bs
    else false

/-- Order of two keys. -/
def keyLt (a b : String) : Bool := ltChars a.data b.data

namespace Mapping

/-- The bindings written as a list, first binding first. -/
def ofList : List (String × Value) → Mapping
  | [] => .nil
  | (k, v) :: t => .cons k v (ofList t)

/-- The keys of the bindings, in the order they are listed. -/
def keys : Mapping → List String
  | .nil => []
  | .cons k _ rest => k :: keys rest

/-- Go `m[k]`, with `none` for an absent key (Go then yields the nil interface). -/
def lookup (k : String) : Mapping → Option Value
  | .nil => none
  | .cons k' v rest => if k' = k then some v else lookup k rest

/-- Go `m[k] = v`: the binding of `k` is replaced, or added at its place in key order. -/
def insert (k : String) (v : Value) : Mapping → Mapping
  | .nil => .cons k v .nil
  | .cons k' v' rest =>
    if keyLt k k' then .cons k v (.cons k' v' rest)
    else if k = k' then .cons k v rest
    else .cons k' v' (insert k v rest)

/-- Every listed key is above `k`. -/
def above (k : String) : Mapping → Bool
  | .nil => true
  | .cons k' _ rest => keyLt k k' && above k rest

/-- The bindings are listed in strictly increasing key order (so no key occurs twice). -/
def sorted : Mapping → Bool
  | .nil => true
  | .cons k _ rest => above k rest && sorted rest

end Mapping

mutual
/-- Well-formedness of a value: every string-keyed mapping reached from it through
string-keyed mappings lists its bindings in strictly increasing key order. -/
def Value.wf : Value → Bool
  | .smap m => m.wf
  | _ => true
/-- Well-formedness of a mapping: it is the canonical listing of a Go map, and so are the
string-keyed mappings nested in it. -/
def Mapping.wf : Mapping → Bool
  | .nil => true
  | .cons k v rest => Mapping.above k rest && (v.wf && rest.wf)
end

/-! ## Deep merge (main.go 154-166) -/

/-- Embedding of `mergeValues(dest, src)`: the result is `dest` after the call.  The loop
visits the bindings of `src`; when `dest[k]` and `v` are both `map[string]interface{}`
the inner map is merged in place, otherwise `dest[k] = v`. -/
def mergeValues (dest : Mapping) (src : Mapping) : Mapping :=
  match src with
  | .nil => dest
  | .cons k v rest =>
    match dest.lookup k, v with
    | some (.smap destMap), .smap srcMap =>
      mergeValues (dest.insert k (.smap (mergeValues destMap srcMap))) rest
    | _, _ => mergeValues (dest.insert k v) rest
termination_by structural src

/-- Embedding of `loadValuesFile` (main.go 137-152) for a file that was read and decoded:
`newValues` is the decoded document, merged into `values`. -/
def loadValuesFile (newValues : Mapping) (values : Mapping) : Mapping :=
  mergeValues values newValues

/-- The loading loop of `main` (main.go 50-57) over the decoded files, from an empty root. -/
def loadAll (files : List Mapping) : Mapping :=
  files.foldl (fun values newValues => loadValuesFile newValues values) .nil

/-! ## Dotted-path override (main.go 331-349) -/

/-- The loop `for k, v := range m[keys[0]].(map[interface{}]interface{})` with body
`nextMap[k.(string)] = v`: `none` when some key is not a string (the assertion panics). -/
def coerceKeys : List (Key × Value) → Mapping → Option Mapping
  | [], nextMap => some nextMap
  | (.str s, v) :: rest, nextMap => coerceKeys rest (nextMap.insert s v)
  | (_, _) :: _, _ => none

/-- Go `x == nil` for the result of a map lookup: the key is absent or bound to nil. -/
def isNil : Option Value → Bool
  | none => true
  | some .null => true
  | some _ => false

/-- Embedding of `setNestedValue(m, keys, value)`: `some` of the map after the call, or
`none` when the call panics (index out of range on an empty `keys`, or a failed type
assertion). -/
def setNestedValue (m : Mapping) (keys : List String) (value : Value) : Option Mapping :=
  match keys with
  | [] => none
  | [k] => some (m.insert k value)
  | k :: k2 :: rest =>
    let m1 := if isNil (m.lookup k) then m.insert k (.smap .nil) else m
    match m1.lookup k with
    | some (.smap nextMap) =>
      (setNestedValue nextMap (k2 :: rest) value).map (fun n => m1.insert k (.smap n))
    | some (.imap im) =>
      match coerceKeys im .nil with
      | some nextMap =>
        (setNestedValue nextMap (k2 :: rest) value).map (fun n => m1.insert k (.smap n))
      | none => none
    | _ => none

/-! ## Override string parsing (main.go 297-329) -/

/-- The double quote character. -/
def dquote : Char := Char.ofNat 34

/-- The line feed character. -/
def lf : Char := Char.ofNat 10

/-- The carriage return character. -/
def cr : Char := Char.ofNat 13

/-- Go `bytes.IndexRune` / `bytes.IndexByte` / `strings.Index` for a one-character needle:
the position of its first occurrence, `none` for Go's `-1`. -/
def indexRune (c : Char) : List Char → Option Nat
  | [] => none
  | x :: xs => if x = c then some 0 else (indexRune c xs).map (· + 1)

/-- Go `strings.Split(s, sep)` for a one-character separator: the pieces between the
separators, all of them. -/
def stringsSplit (sep : Char) : List Char → List (List Char)
  | [] => [[]]
  | c :: cs =>
    if c = sep then [] :: stringsSplit sep cs
    else
      match stringsSplit sep cs with
      | [] => [[c]]
      | piece :: pieces => (c :: piece) :: pieces

/-- Go `strings.SplitN(s, sep, 2)` for a one-character separator: `s` cut at the first
separator, or `s` alone when it has none. -/
def stringsSplitN2 (sep : Char) (s : List Char) : List (List Char) :=
  match indexRune sep s with
  | some i => [s.take i, s.drop (i + 1)]
  | none => [s]

/-- The bytes up to and including the first line feed, and the bytes after it:
`bufio.Reader.ReadSlice` with the line feed as delimiter, on the unread input. -/
def readSlice : List Char → List Char × List Char
  | [] => ([], [])
  | c :: cs => if c = lf then ([c], cs) else (c :: (readSlice cs).1, (readSlice cs).2)

/-- Go `lengthNL` of encoding/csv: 1 when the line ends in a line feed, else 0. -/
def lengthNL (b : List Char) : Nat :=
  if b.length > 0 ∧ b.get? (b.length - 1) = some lf then 1 else 0

/-- Go `(*csv.Reader).readLine`: the next line, the unread input after it, and whether the
error is `io.EOF`.  A carriage return before the end of input is dropped and a line ending
in carriage return, line feed is rewritten to end in a line feed. -/
def readLine (input : List Char) : List Char × List Char × Bool :=
  let line := (readSlice input).1
  let rest := (readSlice input).2
  let eofSlice : Bool := !(decide (line.length > 0 ∧ line.get? (line.length - 1) = some lf))
  let readSize := line.length
  let line1 :=
    if readSize > 0 ∧ eofSlice = true ∧ line.get? (readSize - 1) = some cr
    then line.take (readSize - 1) else line
  let eof : Bool := if readSize > 0 then false else eofSlice
  let n := line1.length
  let line2 :=
    if n ≥ 2 ∧ line1.get? (n - 2) = some cr ∧ line1.get? (n - 1) = some lf
    then line1.take (n - 2) ++ [lf] else line1
  (line2, rest, eof)

/-- The loop at the head of `readRecord`, which skips empty lines: `some none` is `io.EOF`,
`some (some (line, rest))` the first line that is not empty and the unread input after it.
The outer `none` is an exhausted iteration bound. -/
def nextLine : Nat → List Char → Option (Option (List Char × List Char))
  | 0, _ => none
  | fuel + 1, input =>
    if (readLine input).2.2 = true then some none
    else if (readLine input).1.length = lengthNL (readLine input).1 then
      nextLine fuel (readLine input).2.1
    else some (some ((readLine input).1, (readLine input).2.1))

mutual
/-- The `parseField` loop of `readRecord` with `Comma = ','` and `LazyQuotes = true`, at the
start of a field: `line` is the rest of the current line, `input` the unread input and
`fields` the fields of the record read so far.  The result is the record and the unread
input; `none` is an exhausted iteration bound. -/
def parseField : Nat → List Char → List Char → List (List Char) →
    Option (List (List Char) × List Char)
  | 0, _, _, _ => none
  | fuel + 1, line, input, fields =>
    if line.head? ≠ some dquote then
      match indexRune ',' line with
      | some i => parseField fuel (line.drop (i + 1)) input (fields ++ [line.take i])
      | none => some (fields ++ [line.take (line.length - lengthNL line)], input)
    else quotedField fuel (line.drop 1) input [] fields
/-- The inner loop of `parseField` for a quoted field, `buf` holding the field so far. -/
def quotedField : Nat → List Char → List Char → List Char → List (List Char) →
    Option (List (List Char) × List Char)
  | 0, _, _, _, _ => none
  | fuel + 1, line, input, buf, fields =>
    match indexRune dquote line with
    | some i =>
      if (line.drop (i + 1)).head? = some dquote then
        quotedField fuel (line.drop (i + 2)) input (buf ++ line.take i ++ [dquote]) fields
      else if (line.drop (i + 1)).head? = some ',' then
        parseField fuel (line.drop (i + 2)) input (fields ++ [buf ++ line.take i])
      else if lengthNL (line.drop (i + 1)) = (line.drop (i + 1)).length then
        some (fields ++ [buf ++ line.take i], input)
      else
        quotedField fuel (line.drop (i + 1)) input (buf ++ line.take i ++ [dquote]) fields
    | none =>
      if line.length > 0 then
        quotedField fuel (readLine input).1 (readLine input).2.1 (buf ++ line) fields
      else some (fields ++ [buf], input)
end

/-- Go `(*csv.Reader).readRecord` before the field-count check: `some none` is `io.EOF`. -/
def readRecord (input : List Char) : Option (Option (List (List Char) × List Char)) :=
  match nextLine (input.length + 1) input with
  | none => none
  | some none => some none
  | some (some (line, rest)) =>
    (parseField (line.length + rest.length + 1) line rest []).map some

/-- The loop of `(*csv.Reader).ReadAll`, with the field-count check of `readRecord`:
`fieldsPerRecord` is 0 until the first record sets it.  `some none` stands for the error
`ErrFieldCount`, the only one the reader can raise with `LazyQuotes` set. -/
def readAllLoop : Nat → List Char → Nat → List (List (List Char)) →
    Option (Option (List (List (List Char))))
  | 0, _, _, _ => none
  | fuel + 1, input, fieldsPerRecord, records =>
    match readRecord input with
    | none => none
    | some none => some (some records)
    | some (some (record, rest)) =>
      if fieldsPerRecord > 0 ∧ record.length ≠ fieldsPerRecord then some none
      else
        readAllLoop fuel rest (if fieldsPerRecord = 0 then record.length else fieldsPerRecord)
          (records ++ [record])

/-- Go `(*csv.Reader).ReadAll` on a reader over `input`. -/
def readAll (input : List Char) : Option (Option (List (List (List Char)))) :=
  readAllLoop (input.length + 1) input 0 []

/-- The statement `kv := strings.SplitN(item, "=", 2); if len(kv) == 2 { result[kv[0]] = kv[1] }`. -/
def setPair (result : Mapping) (item : List Char) : Mapping :=
  match stringsSplitN2 '=' item with
  | [k, v] => result.insert (String.mk k) (.str (String.mk v))
  | _ => result

/-- Embedding of `parseSetValues`: the map it returns.  The outer `none` is an exhausted
iteration bound of the reader loops. -/
def parseSetValues (setValues : String) : Option Mapping :=
  match readAll setValues.data with
  | none => none
  | some none => some ((stringsSplit ',' setValues.data).foldl setPair .nil)
  | some (some records) =>
    some (records.foldl (fun result record => record.foldl setPair result) .nil)

/-- The override loop of `main` (main.go 62-64), visiting the bindings as listed:
`setNestedValue(values, strings.Split(k, "."), v)` for each of them. -/
def applySetValues (values : Mapping) : Mapping → Option Mapping
  | .nil => some values
  | .cons k v rest =>
    (setNestedValue values ((stringsSplit '.' k.data).map String.mk) v).bind
      (fun values1 => applySetValues values1 rest)
/-! ## Definitions used in the statements and proofs -/

/-- What one round of the loop of `mergeValues` stores at a key: `d` is `dest[k]` before the
round and `v` the value bound in `src`. -/
def mergedAt (d : Option Value) (v : Value) : Value :=
  match d, v with
  | some (.smap destMap), .smap srcMap => .smap (mergeValues destMap srcMap)
  | _, _ => v

/-- The value `d` already bound in `dest` takes the value `v` of `src` without change. -/
def Absorbs (d v : Value) : Prop := mergedAt (some d) v = d

/-- The child map `setNestedValue` descends into, from the value found at `keys[0]`:
an empty map for an absent or nil value, the map itself when it is string-keyed, its
coerced copy when it is interface-keyed, and `none` where the type assertion panics. -/
def childMap : Option Value → Option Mapping
  | none => some .nil
  | some .null => some .nil
  | some (.smap c) => some c
  | some (.imap im) => coerceKeys im .nil
  | some _ => none

/-- The value stored at `keys[0]` by `setNestedValue`, from the value found there. -/
def storedAt (o : Option Value) (rest : List String) (value : Value) : Option Value :=
  match rest with
  | [] => some value
  | k2 :: r => (childMap o).bind (fun c => (setNestedValue c (k2 :: r) value).map Value.smap)

/-- The single chain `{k1: {k2: ... {kn: v}}}`. -/
def chain : List String → Value → Mapping
  | [], _ => .nil
  | [k], v => .cons k v .nil
  | k :: k2 :: rest, v => .cons k (.smap (chain (k2 :: rest) v)) .nil

/-- The reading of a piece of an unquoted override string: the text before its first
equals sign and the text after it, `none` for a piece without equals sign. -/
def plainPair (piece : List Char) : Option (String × String) :=
  if '=' ∈ piece then
    some (String.mk (piece.takeWhile (fun c => c != '=')),
      String.mk ((piece.dropWhile (fun c => c != '=')).drop 1))
  else none

/-- The pairs of an override string read as a plain list: the string split at every comma,
each piece read by `plainPair`, pieces without equals sign dropped. -/
def plainPairs (s : String) : List (String × String) :=
  (s.data.splitOn ',').filterMap plainPair

/-- The mapping of an override string read as a plain list: its pairs bound one after the
other, a later pair replacing an earlier one with the same path; every value is a string. -/
def plainParse (s : String) : Mapping :=
  (plainPairs s).foldl (fun m kv => m.insert kv.1 (.str kv.2)) .nil
/-! ## The key order -/

theorem char_eq_of_toNat_eq (a b : Char) (h : a.toNat = b.toNat) : a = b := by
  apply Char.ext
  cases a with | mk va ha => cases b with | mk vb hb =>
  cases va with | mk fa => cases vb with | mk fb =>
  simp only [Char.toNat, UInt32.toNat] at h
  have hf : fa = fb := BitVec.eq_of_toNat_eq h
  subst hf
  rfl

theorem ltChars_irrefl (a : List Char) : ltChars a a = false := by
  induction a with
  | nil => rfl
  | cons c cs ih => simp [ltChars, ih]

theorem ltChars_trans : ∀ (a b c : List Char),
    ltChars a b = true → ltChars b c = true → ltChars a c = true
  | [], [], _, h, _ => by simp [ltChars] at h
  | [], _ :: _, [], _, h => by simp [ltChars] at h
  | [], _ :: _, _ :: _, _, _ => by simp [ltChars]
  | _ :: _, [], _, h, _ => by simp [ltChars] at h
  | _ :: _, _ :: _, [], _, h => by simp [ltChars] at h
  | x :: xs, y :: ys, z :: zs, h1, h2 => by
    simp only [ltChars] at h1 h2 ⊢
    by_cases hxy : x.toNat < y.toNat
    · by_cases hyz : y.toNat < z.toNat
      · have : x.toNat < z.toNat := by omega
        simp [this]
      · by_cases hyz2 : y.toNat = z.toNat
        · have : x.toNat < z.toNat := by omega
          simp [this]
        · simp [hyz, hyz2] at h2
    · by_cases hxy2 : x.toNat = y.toNat
      · simp only [hxy, hxy2, if_true, if_false] at h1
        by_cases hyz : y.toNat < z.toNat
        · have : x.toNat < z.toNat := by omega
          simp [this]
        · by_cases hyz2 : y.toNat = z.toNat
          · have hn : ¬ x.toNat < z.toNat := by omega
            have he : x.toNat = z.toNat := by omega
            have h2a : ltChars ys zs = true := by simpa [hyz, hyz2] using h2
            have h1a : ltChars xs ys = true := by simpa using h1
            simp [hn, he, ltChars_trans xs ys zs h1a h2a]
          · simp [hyz, hyz2] at h2
      · simp [hxy, hxy2] at h1

theorem ltChars_connected : ∀ (a b : List Char),
    ltChars a b = false → ltChars b a = false → a = b
  | [], [], _, _ => rfl
  | [], _ :: _, h, _ => by simp [ltChars] at h
  | _ :: _, [], _, h => by simp [ltChars] at h
  | x :: xs, y :: ys, h1, h2 => by
    simp only [ltChars] at h1 h2
    by_cases hxy : x.toNat < y.toNat
    · simp [hxy] at h1
    · by_cases hyx : y.toNat < x.toNat
      · simp [hyx] at h2
      · have he : x.toNat = y.toNat := by omega
        have hc : x = y := char_eq_of_toNat_eq x y he
        subst hc
        have h1a : ltChars xs ys = false := by simpa using h1
        have h2a : ltChars ys xs = false := by simpa using h2
        rw [ltChars_connected xs ys h1a h2a]

theorem keyLt_irrefl (a : String) : keyLt a a = false := ltChars_irrefl a.data

theorem keyLt_trans {a b c : String} (h1 : keyLt a b = true) (h2 : keyLt b c = true) :
    keyLt a c = true := ltChars_trans a.data b.data c.data h1 h2

theorem keyLt_connected {a b : String} (h1 : keyLt a b = false) (h2 : keyLt b a = false) :
    a = b := by
  have h := ltChars_connected a.data b.data h1 h2
  cases a; cases b; simp_all

theorem keyLt_asymm {a b : String} (h : keyLt a b = true) : keyLt b a = false := by
  cases hba : keyLt b a with
  | false => rfl
  | true =>
    have := keyLt_trans h hba
    rw [keyLt_irrefl] at this
    exact absurd this (by decide)

theorem keyLt_ne {a b : String} (h : keyLt a b = true) : a ≠ b := by
  intro he
  subst he
  rw [keyLt_irrefl] at h
  exact absurd h (by decide)

namespace Mapping

/-! ## Lookup and insertion -/

/-- Induction along the list of bindings. -/
theorem bindings_induction {P : Mapping → Prop} (hnil : P .nil)
    (hcons : ∀ k v rest, P rest → P (.cons k v rest)) : ∀ m, P m
  | .nil => hnil
  | .cons k v rest => hcons k v rest (bindings_induction hnil hcons rest)

theorem lookup_insert_self (k : String) (v : Value) (m : Mapping) :
    lookup k (insert k v m) = some v := by
  induction m using bindings_induction with
  | hnil => simp [insert, lookup]
  | hcons k' v' rest ih =>
    simp only [insert]
    by_cases h1 : keyLt k k' = true
    · simp [h1, lookup]
    · by_cases h2 : k = k'
      · subst h2
        simp [keyLt_irrefl, lookup]
      · have h3 : ¬ k' = k := fun h => h2 h.symm
        simp [h1, h2, h3, lookup, ih]

theorem lookup_insert_ne {k k0 : String} (h : k ≠ k0) (v : Value) (m : Mapping) :
    lookup k (insert k0 v m) = lookup k m := by
  have h' : ¬ k0 = k := fun e => h e.symm
  induction m using bindings_induction with
  | hnil => simp [insert, lookup, h']
  | hcons k' v' rest ih =>
    simp only [insert]
    by_cases h1 : keyLt k0 k' = true
    · simp [h1, lookup, h']
    · by_cases h2 : k0 = k'
      · subst h2
        simp [h1, lookup, h']
      · simp [h1, h2, lookup, ih]

theorem insert_insert_self (k : String) (x y : Value) (m : Mapping) :
    insert k x (insert k y m) = insert k x m := by
  induction m using bindings_induction with
  | hnil => simp [insert, keyLt_irrefl]
  | hcons k' v' rest ih =>
    by_cases h1 : keyLt k k' = true
    · simp [insert, h1, keyLt_irrefl]
    · by_cases h2 : k = k'
      · simp [insert, h1, h2, keyLt_irrefl]
      · simp [insert, h1, h2, ih]

theorem insert_comm {k1 k2 : String} (h : k1 ≠ k2) (x y : Value) (m : Mapping) :
    insert k1 x (insert k2 y m) = insert k2 y (insert k1 x m) := by
  have h' : ¬ k2 = k1 := fun e => h e.symm
  induction m using bindings_induction with
  | hnil =>
    by_cases h12 : keyLt k1 k2 = true
    · simp [insert, h12, keyLt_asymm h12, h']
    · have h21 : keyLt k2 k1 = true := by
        cases hc : keyLt k2 k1 with
        | true => rfl
        | false => exact absurd (keyLt_connected (by simpa using h12) hc) h
      simp [insert, h12, h21, h]
  | hcons k' v' rest ih =>
    by_cases a1 : keyLt k1 k' = true
    · by_cases a2 : keyLt k2 k' = true
      · by_cases h12 : keyLt k1 k2 = true
        · simp [insert, a1, a2, h12, keyLt_asymm h12, h']
        · have h21 : keyLt k2 k1 = true := by
            cases hc : keyLt k2 k1 with
            | true => rfl
            | false => exact absurd (keyLt_connected (by simpa using h12) hc) h
          simp [insert, a1, a2, h12, h21, h]
      · by_cases b2 : k2 = k'
        · subst b2
          simp [insert, a1, keyLt_irrefl, keyLt_asymm a1, h']
        · have c2 : keyLt k' k2 = true := by
            cases hc : keyLt k' k2 with
            | true => rfl
            | false => exact absurd (keyLt_connected (by simpa using a2) hc) b2
          have h12 : keyLt k1 k2 = true := keyLt_trans a1 c2
          simp [insert, a1, a2, b2, keyLt_asymm h12, h']
    · by_cases b1 : k1 = k'
      · subst b1
        by_cases a2 : keyLt k2 k1 = true
        · simp [insert, a2, keyLt_irrefl, keyLt_asymm a2, h]
        · simp [insert, a2, h', keyLt_irrefl]
      · have c1 : keyLt k' k1 = true := by
          cases hc : keyLt k' k1 with
          | true => rfl
          | false => exact absurd (keyLt_connected (by simpa using a1) hc) b1
        by_cases a2 : keyLt k2 k' = true
        · have h21 : keyLt k2 k1 = true := keyLt_trans a2 c1
          simp [insert, a1, b1, a2, keyLt_asymm h21, h]
        · by_cases b2 : k2 = k'
          · subst b2
            simp [insert, a1, b1, keyLt_irrefl]
          · simp [insert, a1, b1, a2, b2, ih]

end Mapping
namespace Mapping

/-! ## Keys and the canonical listing -/

theorem lookup_eq_none_iff (k : String) (m : Mapping) : lookup k m = none ↔ k ∉ keys m := by
  induction m using bindings_induction with
  | hnil => simp [lookup, keys]
  | hcons k' v' rest ih =>
    by_cases h : k' = k
    · simp [lookup, keys, h]
    · have h' : ¬ k = k' := fun e => h e.symm
      simp [lookup, keys, h, h', ih]

theorem mem_keys_of_lookup {k : String} {m : Mapping} {v : Value} (h : lookup k m = some v) :
    k ∈ keys m := by
  by_contra hc
  rw [(lookup_eq_none_iff k m).mpr hc] at h
  exact absurd h (by simp)

theorem mem_keys_insert (j k : String) (v : Value) (m : Mapping) :
    j ∈ keys (insert k v m) ↔ j = k ∨ j ∈ keys m := by
  by_cases h : j = k
  · subst h
    have : lookup j (insert j v m) ≠ none := by rw [lookup_insert_self]; simp
    have hm : j ∈ keys (insert j v m) := by
      by_contra hc
      exact this ((lookup_eq_none_iff _ _).mpr hc)
    simp [hm]
  · have e := lookup_insert_ne h v m
    constructor
    · intro hj
      right
      by_contra hc
      rw [(lookup_eq_none_iff _ _).mpr hc] at e
      exact (lookup_eq_none_iff _ _).mp e hj
    · intro hj
      rcases hj with hj | hj
      · exact absurd hj h
      · by_contra hc
        rw [(lookup_eq_none_iff _ _).mpr hc] at e
        exact (lookup_eq_none_iff _ _).mp e.symm hj

theorem above_iff (k : String) (m : Mapping) :
    above k m = true ↔ ∀ j ∈ keys m, keyLt k j = true := by
  induction m using bindings_induction with
  | hnil => simp [above, keys]
  | hcons k' v' rest ih => simp [above, keys, ih]

theorem lookup_of_above {k : String} {m : Mapping} (h : above k m = true) :
    lookup k m = none := by
  rw [lookup_eq_none_iff]
  intro hk
  have := (above_iff k m).mp h k hk
  rw [keyLt_irrefl] at this
  exact absurd this (by decide)

theorem above_insert {a k : String} (v : Value) {m : Mapping} (hak : keyLt a k = true)
    (h : above a m = true) : above a (insert k v m) = true := by
  rw [above_iff] at h ⊢
  intro j hj
  rcases (mem_keys_insert j k v m).mp hj with e | e
  · rw [e]; exact hak
  · exact h j e

theorem sorted_insert (k : String) (v : Value) {m : Mapping} (h : sorted m = true) :
    sorted (insert k v m) = true := by
  induction m using bindings_induction with
  | hnil => simp [insert, sorted, above]
  | hcons k' v' rest ih =>
    simp only [sorted, Bool.and_eq_true] at h
    by_cases h1 : keyLt k k' = true
    · have hab : above k rest = true := by
        rw [above_iff]
        intro j hj
        exact keyLt_trans h1 ((above_iff k' rest).mp h.1 j hj)
      simp [insert, h1, sorted, above, hab, h.1, h.2]
    · by_cases h2 : k = k'
      · subst h2
        simp [insert, keyLt_irrefl, sorted, h.1, h.2]
      · have c : keyLt k' k = true := by
          cases hc : keyLt k' k with
          | true => rfl
          | false => exact absurd (keyLt_connected (by simpa using h1) hc) h2
        simp [insert, h1, h2, sorted, above_insert v c h.1, ih h.2]

theorem insert_lookup_self {k : String} {x : Value} {m : Mapping} (hs : sorted m = true)
    (h : lookup k m = some x) : insert k x m = m := by
  induction m using bindings_induction with
  | hnil => simp [lookup] at h
  | hcons k' v' rest ih =>
    simp only [sorted, Bool.and_eq_true] at hs
    by_cases e : k' = k
    · subst e
      simp only [lookup, if_true, Option.some.injEq] at h
      subst h
      simp [insert, keyLt_irrefl]
    · simp only [lookup, e, if_false] at h
      have hk : k ∈ keys rest := mem_keys_of_lookup h
      have c : keyLt k' k = true := (above_iff k' rest).mp hs.1 k hk
      have e' : ¬ k = k' := fun x => e x.symm
      simp [insert, keyLt_asymm c, e', ih hs.2 h]

/-- Two canonical listings with the same binding at every key are equal. -/
theorem ext_of_sorted : ∀ (a b : Mapping), sorted a = true → sorted b = true →
    (∀ k, lookup k a = lookup k b) → a = b
  | .nil, .nil, _, _, _ => rfl
  | .nil, .cons k v rest, _, _, h => by
    have := h k
    simp [lookup] at this
  | .cons k v rest, .nil, _, _, h => by
    have := h k
    simp [lookup] at this
  | .cons k v rest, .cons k' v' rest', ha, hb, h => by
    simp only [sorted, Bool.and_eq_true] at ha hb
    have hkk : k = k' := by
      by_contra hne
      have h1 := h k
      have h2 := h k'
      have hne' : ¬ k' = k := fun e => hne e.symm
      simp only [lookup, if_true, hne', hne, if_false] at h1 h2
      have c1 : keyLt k' k = true := (above_iff k' rest').mp hb.1 k (mem_keys_of_lookup h1.symm)
      have c2 : keyLt k k' = true := (above_iff k rest).mp ha.1 k' (mem_keys_of_lookup h2)
      rw [keyLt_asymm c1] at c2
      exact absurd c2 (by decide)
    subst hkk
    have hv : v = v' := by
      have h1 := h k
      simpa [lookup] using h1
    subst hv
    have hr : rest = rest' := by
      apply ext_of_sorted rest rest' ha.2 hb.2
      intro j
      by_cases e : k = j
      · subst e
        rw [lookup_of_above ha.1, lookup_of_above hb.1]
      · have := h j
        simpa [lookup, e] using this
    rw [hr]

theorem sorted_of_wf {m : Mapping} (h : m.wf = true) : sorted m = true := by
  induction m using bindings_induction with
  | hnil => rfl
  | hcons k v rest ih =>
    simp only [Mapping.wf, Bool.and_eq_true] at h
    simp [sorted, h.1, ih h.2.2]

theorem wf_of_lookup {k : String} {m s : Mapping} (h : m.wf = true)
    (hl : lookup k m = some (.smap s)) : s.wf = true := by
  induction m using bindings_induction with
  | hnil => simp [lookup] at hl
  | hcons k' v rest ih =>
    simp only [Mapping.wf, Bool.and_eq_true] at h
    by_cases e : k' = k
    · simp only [lookup, e, if_true, Option.some.injEq] at hl
      subst hl
      simpa [Value.wf] using h.2.1
    · simp only [lookup, e, if_false] at hl
      exact ih h.2.2 hl

theorem nodup_keys_of_sorted {m : Mapping} (h : sorted m = true) : (keys m).Nodup := by
  induction m using bindings_induction with
  | hnil => simp [keys]
  | hcons k v rest ih =>
    simp only [sorted, Bool.and_eq_true] at h
    have hk : k ∉ keys rest := (lookup_eq_none_iff k rest).mp (lookup_of_above h.1)
    simp [keys, hk, ih h.2]

theorem sizeOf_lookup_lt {k : String} {m s : Mapping} (hl : lookup k m = some (.smap s)) :
    sizeOf s < sizeOf m := by
  induction m using bindings_induction with
  | hnil => simp [lookup] at hl
  | hcons k' v rest ih =>
    by_cases e : k' = k
    · simp only [lookup, e, if_true, Option.some.injEq] at hl
      subst hl
      simp
      omega
    · simp only [lookup, e, if_false] at hl
      have := ih hl
      simp
      omega

end Mapping
/-! ## Deep merge, key by key -/

theorem mergedAt_smap (d s : Mapping) :
    mergedAt (some (.smap d)) (.smap s) = .smap (mergeValues d s) := rfl

theorem mergedAt_of_not_both {o : Option Value} {v : Value}
    (h : ¬ ∃ d s, o = some (.smap d) ∧ v = .smap s) : mergedAt o v = v := by
  unfold mergedAt
  split
  · next d s => exact absurd ⟨d, s, rfl, rfl⟩ h
  · rfl

theorem mergeValues_nil (dest : Mapping) : mergeValues dest .nil = dest :=
  mergeValues.eq_1 dest

theorem mergeValues_cons (dest : Mapping) (k : String) (v : Value) (rest : Mapping) :
    mergeValues dest (.cons k v rest)
      = mergeValues (dest.insert k (mergedAt (dest.lookup k) v)) rest := by
  unfold mergedAt
  split
  · next destMap srcMap h => rw [mergeValues.eq_2 _ _ _ _ _ h]
  · next h => rw [mergeValues.eq_3 _ _ _ _ (fun dm sm h1 h2 => h dm sm h1 h2)]

theorem lookup_mergeValues (src : Mapping) : ∀ (dest : Mapping) (k : String),
    (Mapping.keys src).Nodup →
    Mapping.lookup k (mergeValues dest src) =
      match Mapping.lookup k src with
      | none => Mapping.lookup k dest
      | some v => some (mergedAt (Mapping.lookup k dest) v) := by
  induction src using Mapping.bindings_induction with
  | hnil => intro dest k _; simp [mergeValues_nil, Mapping.lookup]
  | hcons k0 v0 rest ih =>
    intro dest k hnd
    simp only [Mapping.keys, List.nodup_cons] at hnd
    rw [mergeValues_cons, ih _ k hnd.2]
    by_cases e : k0 = k
    · subst e
      have hn : Mapping.lookup k0 rest = none := (Mapping.lookup_eq_none_iff k0 rest).mpr hnd.1
      simp [hn, Mapping.lookup, Mapping.lookup_insert_self]
    · have e' : k ≠ k0 := fun x => e x.symm
      simp [Mapping.lookup, e, Mapping.lookup_insert_ne e']

theorem sorted_mergeValues (src : Mapping) : ∀ (dest : Mapping),
    Mapping.sorted dest = true → Mapping.sorted (mergeValues dest src) = true := by
  induction src using Mapping.bindings_induction with
  | hnil => intro dest h; simpa [mergeValues_nil] using h
  | hcons k0 v0 rest ih =>
    intro dest h
    rw [mergeValues_cons]
    exact ih _ (Mapping.sorted_insert _ _ h)

/-- A sorted `dest` that absorbs every binding of `src` is left as it is by the merge. -/
theorem mergeValues_eq_self_of_absorbs (src : Mapping) : ∀ (dest : Mapping),
    Mapping.sorted dest = true → (Mapping.keys src).Nodup →
    (∀ k v, Mapping.lookup k src = some v →
      ∃ d, Mapping.lookup k dest = some d ∧ Absorbs d v) →
    mergeValues dest src = dest := by
  induction src using Mapping.bindings_induction with
  | hnil => intro dest _ _ _; exact mergeValues_nil dest
  | hcons k0 v0 rest ih =>
    intro dest hs hnd h
    simp only [Mapping.keys, List.nodup_cons] at hnd
    obtain ⟨d, hd, ha⟩ := h k0 v0 (by simp [Mapping.lookup])
    rw [mergeValues_cons, hd]
    unfold Absorbs at ha
    rw [ha, Mapping.insert_lookup_self hs hd]
    apply ih dest hs hnd.2
    intro k v hk
    apply h k v
    have hne : ¬ k0 = k := by
      intro e
      subst e
      exact hnd.1 (Mapping.mem_keys_of_lookup hk)
    simpa [Mapping.lookup, hne] using hk

/-- Merging a well-formed mapping into itself changes nothing. -/
theorem mergeValues_self_aux : ∀ (n : Nat) (m : Mapping), sizeOf m ≤ n → m.wf = true →
    mergeValues m m = m := by
  intro n
  induction n with
  | zero =>
    intro m hn _
    cases m <;> simp at hn
  | succ n ih =>
    intro m hn hw
    apply mergeValues_eq_self_of_absorbs m m (Mapping.sorted_of_wf hw)
      (Mapping.nodup_keys_of_sorted (Mapping.sorted_of_wf hw))
    intro k v hk
    refine ⟨v, hk, ?_⟩
    unfold Absorbs
    by_cases hb : ∃ d s, some v = some (.smap d) ∧ v = .smap s
    · obtain ⟨d, s, h1, h2⟩ := hb
      subst h2
      have hlt := Mapping.sizeOf_lookup_lt hk
      rw [mergedAt_smap, ih s (by omega) (Mapping.wf_of_lookup hw hk)]
    · exact mergedAt_of_not_both hb

theorem mergeValues_self (m : Mapping) (hw : m.wf = true) : mergeValues m m = m :=
  mergeValues_self_aux (sizeOf m) m (Nat.le_refl _) hw

/-- Idempotence in the source, by induction on the size of the source. -/
theorem mergeValues_idem_aux : ∀ (n : Nat) (dest src : Mapping), sizeOf src ≤ n →
    dest.wf = true → src.wf = true →
    mergeValues (mergeValues dest src) src = mergeValues dest src := by
  intro n
  induction n with
  | zero =>
    intro dest src hn _ _
    cases src <;> simp at hn
  | succ n ih =>
    intro dest src hn hd hs
    have hnd := Mapping.nodup_keys_of_sorted (Mapping.sorted_of_wf hs)
    apply mergeValues_eq_self_of_absorbs src _
      (sorted_mergeValues src dest (Mapping.sorted_of_wf hd)) hnd
    intro k v hk
    rw [lookup_mergeValues src dest k hnd, hk]
    refine ⟨_, rfl, ?_⟩
    unfold Absorbs
    by_cases hb : ∃ d s, Mapping.lookup k dest = some (.smap d) ∧ v = .smap s
    · obtain ⟨d, s, h1, h2⟩ := hb
      subst h2
      have hlt := Mapping.sizeOf_lookup_lt hk
      rw [h1, mergedAt_smap, mergedAt_smap,
        ih d s (by omega) (Mapping.wf_of_lookup hd h1) (Mapping.wf_of_lookup hs hk)]
    · rw [mergedAt_of_not_both hb]
      by_cases hv : ∃ s, v = .smap s
      · obtain ⟨s, h2⟩ := hv
        subst h2
        rw [mergedAt_smap, mergeValues_self s (Mapping.wf_of_lookup hs hk)]
      · apply mergedAt_of_not_both
        rintro ⟨d, s, _, h2⟩
        exact hv ⟨s, h2⟩

/-- Merging `a` once more into the merge of `b` into `a` gives the merge of `a` into `b`. -/
theorem mergeValues_again_aux : ∀ (n : Nat) (a b : Mapping), sizeOf a ≤ n →
    a.wf = true → b.wf = true →
    mergeValues (mergeValues a b) a = mergeValues b a := by
  intro n
  induction n with
  | zero =>
    intro a b hn _ _
    cases a <;> simp at hn
  | succ n ih =>
    intro a b hn ha hb
    have hna := Mapping.nodup_keys_of_sorted (Mapping.sorted_of_wf ha)
    have hnb := Mapping.nodup_keys_of_sorted (Mapping.sorted_of_wf hb)
    apply Mapping.ext_of_sorted
    · exact sorted_mergeValues a _ (sorted_mergeValues b a (Mapping.sorted_of_wf ha))
    · exact sorted_mergeValues a b (Mapping.sorted_of_wf hb)
    intro k
    rw [lookup_mergeValues a _ k hna, lookup_mergeValues a b k hna,
      lookup_mergeValues b a k hnb]
    cases hka : Mapping.lookup k a with
    | none =>
      cases hkb : Mapping.lookup k b with
      | none => rfl
      | some y =>
        simp only
        rw [mergedAt_of_not_both (by simp)]
    | some x =>
      simp only [Option.some.injEq]
      cases hkb : Mapping.lookup k b with
      | none =>
        simp only
        by_cases hv : ∃ s, x = .smap s
        · obtain ⟨s, h2⟩ := hv
          subst h2
          rw [mergedAt_smap, mergeValues_self s (Mapping.wf_of_lookup ha hka)]
          rw [mergedAt_of_not_both (by simp)]
        · rw [mergedAt_of_not_both (o := none) (by simp)]
          apply mergedAt_of_not_both
          rintro ⟨d, s, _, h2⟩
          exact hv ⟨s, h2⟩
      | some y =>
        simp only
        by_cases hboth : ∃ sa sb, x = .smap sa ∧ y = .smap sb
        · obtain ⟨sa, sb, h1, h2⟩ := hboth
          subst h1
          subst h2
          have hlt := Mapping.sizeOf_lookup_lt hka
          rw [mergedAt_smap, mergedAt_smap, mergedAt_smap,
            ih sa sb (by omega) (Mapping.wf_of_lookup ha hka) (Mapping.wf_of_lookup hb hkb)]
        · have h1 : mergedAt (some x) y = y := by
            apply mergedAt_of_not_both
            rintro ⟨d, s, hx, hy⟩
            simp only [Option.some.injEq] at hx
            exact hboth ⟨d, s, hx, hy⟩
          have h2 : mergedAt (some y) x = x := by
            apply mergedAt_of_not_both
            rintro ⟨d, s, hy, hx⟩
            simp only [Option.some.injEq] at hy
            exact hboth ⟨s, d, hx, hy⟩
          rw [h1, h2]

theorem mergeValues_nil_left (a : Mapping) (ha : Mapping.sorted a = true) :
    mergeValues .nil a = a := by
  apply Mapping.ext_of_sorted _ _ (sorted_mergeValues a .nil rfl) ha
  intro k
  rw [lookup_mergeValues a .nil k (Mapping.nodup_keys_of_sorted ha)]
  cases h : Mapping.lookup k a with
  | none => rfl
  | some v =>
    simp only [Mapping.lookup]
    rw [mergedAt_of_not_both (by simp)]
/-! ## Dotted-path override, one level at a time -/

theorem setNestedValue_single (m : Mapping) (k : String) (value : Value) :
    setNestedValue m [k] value = some (m.insert k value) := by
  rw [setNestedValue]

theorem setNestedValue_descend (m : Mapping) (k k2 : String) (rest : List String)
    (value : Value) :
    setNestedValue m (k :: k2 :: rest) value =
      (childMap (m.lookup k)).bind (fun c =>
        (setNestedValue c (k2 :: rest) value).map (fun n => m.insert k (.smap n))) := by
  rw [setNestedValue]
  cases h : m.lookup k with
  | none =>
    simp only [isNil, if_true, Mapping.lookup_insert_self, childMap, Option.some_bind,
      Mapping.insert_insert_self]
  | some x =>
    cases x with
    | null =>
      simp only [isNil, if_true, Mapping.lookup_insert_self, childMap, Option.some_bind,
        Mapping.insert_insert_self]
    | smap c => simp [isNil, h, childMap]
    | imap im =>
      simp only [isNil, childMap]
      cases hc : coerceKeys im .nil <;> simp [h, hc]
    | bool b => simp [isNil, h, childMap]
    | int i => simp [isNil, h, childMap]
    | float f => simp [isNil, h, childMap]
    | str s => simp [isNil, h, childMap]
    | seq xs => simp [isNil, h, childMap]

theorem setNestedValue_cons (m : Mapping) (k : String) (rest : List String) (value : Value) :
    setNestedValue m (k :: rest) value =
      (storedAt (m.lookup k) rest value).map (fun x => m.insert k x) := by
  cases rest with
  | nil => simp [setNestedValue_single, storedAt]
  | cons k2 r =>
    rw [setNestedValue_descend]
    simp only [storedAt]
    cases childMap (m.lookup k) with
    | none => rfl
    | some c =>
      simp only [Option.some_bind]
      cases setNestedValue c (k2 :: r) value <;> simp

theorem setNestedValue_off_path {m r : Mapping} {k : String} {rest : List String}
    {value : Value} (h : setNestedValue m (k :: rest) value = some r) (j : String)
    (hj : j ≠ k) : r.lookup j = m.lookup j := by
  rw [setNestedValue_cons] at h
  cases hs : storedAt (m.lookup k) rest value with
  | none => simp [hs] at h
  | some x =>
    simp only [hs, Option.map_some', Option.some.injEq] at h
    rw [← h, Mapping.lookup_insert_ne hj]

/-- Overrides on two paths, neither a prefix of the other, can be applied in either order. -/
theorem setNestedValue_comm_aux : ∀ (p q : List String) (m : Mapping) (v w : Value),
    ¬ p <+: q → ¬ q <+: p →
    (setNestedValue m p v).bind (fun r => setNestedValue r q w)
      = (setNestedValue m q w).bind (fun r => setNestedValue r p v)
  | [], q, _, _, _, hp, _ => absurd (List.nil_prefix (l := q)) hp
  | _ :: _, [], _, _, _, _, hq => absurd List.nil_prefix hq
  | k1 :: p', k2 :: q', m, v, w, hp, hq => by
    by_cases hk : k1 = k2
    · subst hk
      have hp' : ¬ p' <+: q' := fun h => hp ((List.cons_prefix_cons).mpr ⟨rfl, h⟩)
      have hq' : ¬ q' <+: p' := fun h => hq ((List.cons_prefix_cons).mpr ⟨rfl, h⟩)
      cases p' with
      | nil => exact absurd List.nil_prefix hp'
      | cons a p'' =>
        cases q' with
        | nil => exact absurd List.nil_prefix hq'
        | cons b q'' =>
          have ih := fun c => setNestedValue_comm_aux (a :: p'') (b :: q'') c v w hp' hq'
          rw [setNestedValue_descend, setNestedValue_descend]
          cases hc : childMap (m.lookup k1) with
          | none => rfl
          | some c =>
            simp only [Option.some_bind]
            have key := ih c
            cases h1 : setNestedValue c (a :: p'') v with
            | none =>
              cases h2 : setNestedValue c (b :: q'') w with
              | none => rfl
              | some n2 =>
                rw [h1, h2] at key
                simp only [Option.none_bind, Option.some_bind] at key
                simp [setNestedValue_descend, Mapping.lookup_insert_self, childMap, ← key]
            | some n1 =>
              cases h2 : setNestedValue c (b :: q'') w with
              | none =>
                rw [h1, h2] at key
                simp only [Option.none_bind, Option.some_bind] at key
                simp [setNestedValue_descend, Mapping.lookup_insert_self, childMap, key]
              | some n2 =>
                rw [h1, h2] at key
                simp only [Option.some_bind] at key
                simp [setNestedValue_descend, Mapping.lookup_insert_self, childMap, key,
                  Mapping.insert_insert_self]
    · have hk' : k2 ≠ k1 := fun e => hk e.symm
      rw [setNestedValue_cons m k1, setNestedValue_cons m k2]
      cases h1 : storedAt (m.lookup k1) p' v with
      | none =>
        cases h2 : storedAt (m.lookup k2) q' w with
        | none => rfl
        | some y =>
          simp [setNestedValue_cons, Mapping.lookup_insert_ne hk, h1]
      | some x =>
        cases h2 : storedAt (m.lookup k2) q' w with
        | none =>
          simp [setNestedValue_cons, Mapping.lookup_insert_ne hk', h2]
        | some y =>
          simp [setNestedValue_cons, Mapping.lookup_insert_ne hk', Mapping.lookup_insert_ne hk,
            h1, h2, Mapping.insert_comm hk' y x]

theorem setNestedValue_nil_chain : ∀ (keys : List String) (v : Value), keys ≠ [] →
    setNestedValue .nil keys v = some (chain keys v)
  | [], _, h => absurd rfl h
  | [k], v, _ => by simp [setNestedValue_single, chain, Mapping.insert]
  | k :: k2 :: rest, v, _ => by
    have ih := setNestedValue_nil_chain (k2 :: rest) v (by simp)
    rw [setNestedValue_descend]
    simp [Mapping.lookup, childMap, chain, Mapping.insert, ih]
/-! ## Where the override panics -/

/-- A value that is neither nil nor a mapping of either kind at `keys[0]` makes
`setNestedValue` panic as soon as the path goes on. -/
theorem setNestedValue_none_of_not_map (root : Mapping) (k k2 : String) (rest : List String)
    (value x : Value) (hx : root.lookup k = some x) (hnull : x ≠ .null)
    (hs : ∀ c, x ≠ .smap c) (hi : ∀ im, x ≠ .imap im) :
    setNestedValue root (k :: k2 :: rest) value = none := by
  rw [setNestedValue_descend, hx]
  cases x with
  | null => exact absurd rfl hnull
  | smap c => exact absurd rfl (hs c)
  | imap im => exact absurd rfl (hi im)
  | bool b => rfl
  | int i => rfl
  | float f => rfl
  | str s => rfl
  | seq xs => rfl

theorem coerceKeys_none_of_not_str : ∀ (im : List (Key × Value)) (acc : Mapping),
    (∃ kv ∈ im, ∀ s, kv.1 ≠ .str s) → coerceKeys im acc = none
  | [], _, h => by simp at h
  | (key, v) :: rest, acc, h => by
    cases key with
    | str s =>
      rw [coerceKeys]
      apply coerceKeys_none_of_not_str rest
      obtain ⟨kv, hm, hk⟩ := h
      rcases List.mem_cons.mp hm with e | e
      · subst e
        exact absurd rfl (hk s)
      · exact ⟨kv, e, hk⟩
    | int i => rfl
    | bool b => rfl
    | float f => rfl
    | null => rfl

/-- An interface-keyed mapping with a key that is not a string at `keys[0]` makes
`setNestedValue` panic as soon as the path goes on. -/
theorem setNestedValue_none_of_foreign_key (root : Mapping) (k k2 : String)
    (rest : List String) (value : Value) (im : List (Key × Value))
    (hx : root.lookup k = some (.imap im)) (hkey : ∃ kv ∈ im, ∀ s, kv.1 ≠ .str s) :
    setNestedValue root (k :: k2 :: rest) value = none := by
  rw [setNestedValue_descend, hx]
  simp [childMap, coerceKeys_none_of_not_str im .nil hkey]
/-! ## The reader on a single unquoted line -/

theorem indexRune_eq_none {c : Char} {l : List Char} (h : c ∉ l) : indexRune c l = none := by
  induction l with
  | nil => rfl
  | cons x xs ih =>
    simp only [List.mem_cons, not_or] at h
    have hx : ¬ x = c := fun e => h.1 e.symm
    simp [indexRune, hx, ih h.2]

theorem indexRune_ne_none_of_mem {c : Char} {l : List Char} (hm : c ∈ l) :
    indexRune c l ≠ none := by
  induction l with
  | nil => simp at hm
  | cons y ys ih =>
    by_cases hy : y = c
    · simp [indexRune, hy]
    · simp only [indexRune, hy, if_false, ne_eq, Option.map_eq_none']
      rcases List.mem_cons.mp hm with e | e
      · exact absurd e.symm hy
      · exact ih e

theorem indexRune_some_mem {c : Char} : ∀ {l : List Char} {i : Nat},
    indexRune c l = some i → c ∈ l := by
  intro l i h
  by_contra hc
  rw [indexRune_eq_none hc] at h
  exact absurd h (by simp)

theorem splitOn_of_indexRune_none {c : Char} {l : List Char} (h : indexRune c l = none) :
    l.splitOn c = [l] := by
  apply List.splitOnP_eq_single
  intro x hx
  have hne : x ≠ c := by
    intro e
    subst e
    exact indexRune_ne_none_of_mem hx h
  simpa using hne

theorem splitOn_of_indexRune_some {c : Char} : ∀ (l : List Char) (i : Nat),
    indexRune c l = some i →
    l.splitOn c = l.take i :: (l.drop (i + 1)).splitOn c := by
  intro l
  induction l with
  | nil => intro i h; simp [indexRune] at h
  | cons x xs ih =>
    intro i h
    by_cases hx : x = c
    · simp only [indexRune, hx, if_true, Option.some.injEq] at h
      subst h
      subst hx
      simp [List.splitOn, List.splitOnP_cons]
    · simp only [indexRune, hx, if_false, Option.map_eq_some'] at h
      obtain ⟨j, hj, hij⟩ := h
      subst hij
      have e := ih j hj
      simp only [List.splitOn] at e ⊢
      rw [List.splitOnP_cons, e]
      simp [hx, List.modifyHead]

theorem take_drop_of_indexRune {c : Char} : ∀ (l : List Char) (i : Nat),
    indexRune c l = some i →
    l.take i = l.takeWhile (fun x => x != c) ∧
      l.drop (i + 1) = (l.dropWhile (fun x => x != c)).drop 1 := by
  intro l
  induction l with
  | nil => intro i h; simp [indexRune] at h
  | cons x xs ih =>
    intro i h
    by_cases hx : x = c
    · simp only [indexRune, hx, if_true, Option.some.injEq] at h
      subst h
      simp [List.takeWhile, List.dropWhile, hx]
    · simp only [indexRune, hx, if_false, Option.map_eq_some'] at h
      obtain ⟨j, hj, hij⟩ := h
      subst hij
      have e := ih j hj
      have hb : (x != c) = true := by simpa using hx
      simp [List.takeWhile, List.dropWhile, hb, e.1, e.2]

theorem setPair_eq (m : Mapping) (item : List Char) :
    setPair m item =
      match plainPair item with
      | some kv => m.insert kv.1 (.str kv.2)
      | none => m := by
  unfold setPair stringsSplitN2 plainPair
  cases h : indexRune '=' item with
  | none =>
    have hn : '=' ∉ item := fun hm => indexRune_ne_none_of_mem hm h
    simp [hn]
  | some i =>
    have hm := indexRune_some_mem h
    have e := take_drop_of_indexRune item i h
    simp [hm, e.1, e.2]

theorem foldl_setPair (pieces : List (List Char)) : ∀ (m : Mapping),
    pieces.foldl setPair m
      = (pieces.filterMap plainPair).foldl (fun m kv => m.insert kv.1 (.str kv.2)) m := by
  induction pieces with
  | nil => intro m; rfl
  | cons p ps ih =>
    intro m
    rw [List.foldl_cons, ih, setPair_eq]
    cases h : plainPair p with
    | none => simp [List.filterMap_cons, h]
    | some kv => simp [List.filterMap_cons, h]

theorem readSlice_of_no_lf {l : List Char} (h : lf ∉ l) : readSlice l = (l, []) := by
  induction l with
  | nil => rfl
  | cons x xs ih =>
    simp only [List.mem_cons, not_or] at h
    have hx : ¬ x = lf := fun e => h.1 e.symm
    simp [readSlice, hx, ih h.2]

theorem get?_ne_of_not_mem {l : List Char} {c : Char} (h : c ∉ l) (n : Nat) :
    l.get? n ≠ some c := by
  intro e
  exact h (List.get?_mem e)

theorem getElem?_ne_of_not_mem {l : List Char} {c : Char} (h : c ∉ l) (n : Nat) :
    ¬ l[n]? = some c := by
  intro e
  exact h (List.getElem?_mem e)

theorem lengthNL_of_no_lf {l : List Char} (h : lf ∉ l) : lengthNL l = 0 := by
  simp [lengthNL, getElem?_ne_of_not_mem h]

theorem readLine_plain {l : List Char} (hne : l ≠ []) (hlf : lf ∉ l) (hcr : cr ∉ l) :
    readLine l = (l, [], false) := by
  have hlen : l.length > 0 := List.length_pos.mpr hne
  have h1 : ∀ n, (l.get? n = some lf) = False := fun n =>
    eq_false (get?_ne_of_not_mem hlf n)
  have h2 : ∀ n, (l.get? n = some cr) = False := fun n =>
    eq_false (get?_ne_of_not_mem hcr n)
  simp only [readLine, readSlice_of_no_lf hlf, h1, h2, hlen, and_false, false_and,
    if_false, if_true, decide_False, Bool.not_false]

theorem parseField_plain : ∀ (fuel : Nat) (line input : List Char) (fields : List (List Char)),
    dquote ∉ line → lf ∉ line → line.length < fuel →
    parseField fuel line input fields = some (fields ++ line.splitOn ',', input) := by
  intro fuel
  induction fuel with
  | zero => intro line input fields _ _ h; exact absurd h (Nat.not_lt_zero _)
  | succ fuel ih =>
    intro line input fields hq hlf hlen
    have hhead : line.head? ≠ some dquote := by
      intro e
      exact hq (List.mem_of_mem_head? e)
    rw [parseField]
    simp only [hhead, ne_eq, not_false_eq_true, if_true]
    cases hi : indexRune ',' line with
    | none =>
      simp only [lengthNL_of_no_lf hlf, Nat.sub_zero, List.take_length,
        splitOn_of_indexRune_none hi]
    | some i =>
      simp only
      have hm : ',' ∈ line := indexRune_some_mem hi
      have hpos : 0 < line.length := List.length_pos_of_mem hm
      rw [ih (line.drop (i + 1)) input _ (fun h => hq (List.mem_of_mem_drop h))
        (fun h => hlf (List.mem_of_mem_drop h))
        (by simp only [List.length_drop]; omega),
        splitOn_of_indexRune_some line i hi]
      simp
theorem readRecord_nil : readRecord [] = some none := by
  simp [readRecord, nextLine, readLine, readSlice]

theorem readRecord_plain {l : List Char} (hne : l ≠ []) (hq : dquote ∉ l) (hlf : lf ∉ l)
    (hcr : cr ∉ l) : readRecord l = some (some (l.splitOn ',', [])) := by
  have hlen : l.length ≠ 0 := fun e => hne (List.length_eq_zero.mp e)
  have hn : nextLine (l.length + 1) l = some (some (l, [])) := by
    rw [nextLine]
    simp [readLine_plain hne hlf hcr, lengthNL_of_no_lf hlf, hlen]
  simp only [readRecord, hn]
  rw [parseField_plain _ l [] [] hq hlf (by simp)]
  simp

theorem readAll_plain {l : List Char} (hne : l ≠ []) (hq : dquote ∉ l) (hlf : lf ∉ l)
    (hcr : cr ∉ l) : readAll l = some (some [l.splitOn ',']) := by
  obtain ⟨n, hn⟩ : ∃ n, l.length = n + 1 :=
    Nat.exists_eq_succ_of_ne_zero (fun e => hne (List.length_eq_zero.mp e))
  simp only [readAll, hn]
  rw [readAllLoop]
  simp only [readRecord_plain hne hq hlf hcr]
  simp only [Nat.lt_irrefl, false_and, if_false, if_true, List.nil_append]
  rw [readAllLoop]
  simp only [readRecord_nil]

theorem readAll_nil : readAll [] = some (some []) := by
  simp [readAll, readAllLoop, readRecord_nil]
/-! ## The iteration bounds of the reader are never exhausted -/

theorem readSlice_length (l : List Char) :
    (readSlice l).1.length + (readSlice l).2.length = l.length := by
  induction l with
  | nil => rfl
  | cons x xs ih =>
    by_cases hx : x = lf
    · simp [readSlice, hx]
      omega
    · simp [readSlice, hx]
      omega

theorem readSlice_pos {l : List Char} (h : l ≠ []) : 0 < (readSlice l).1.length := by
  cases l with
  | nil => exact absurd rfl h
  | cons x xs =>
    by_cases hx : x = lf
    · simp [readSlice, hx]
    · simp [readSlice, hx]

theorem readLine_rest (input : List Char) : (readLine input).2.1 = (readSlice input).2 := rfl

theorem readLine_line_length (input : List Char) :
    (readLine input).1.length ≤ (readSlice input).1.length := by
  simp only [readLine]
  split <;> split <;> simp <;> omega

theorem readLine_length (input : List Char) :
    (readLine input).1.length + (readLine input).2.1.length ≤ input.length := by
  have h1 := readLine_line_length input
  have h2 := readSlice_length input
  rw [readLine_rest]
  omega

theorem readLine_eof_false {input : List Char} (h : (readLine input).2.2 = false) :
    (readLine input).2.1.length < input.length := by
  have h2 := readSlice_length input
  rw [readLine_rest]
  by_cases hne : input = []
  · subst hne
    simp [readLine, readSlice] at h
  · have := readSlice_pos hne
    omega

theorem readLine_rest_le (input : List Char) :
    (readLine input).2.1.length ≤ input.length := by
  have h2 := readSlice_length input
  rw [readLine_rest]
  omega

theorem nextLine_total : ∀ (fuel : Nat) (input : List Char), input.length < fuel →
    nextLine fuel input = some none ∨
    ∃ line rest, nextLine fuel input = some (some (line, rest)) ∧
      line.length + rest.length ≤ input.length ∧ rest.length < input.length := by
  intro fuel
  induction fuel with
  | zero => intro input h; exact absurd h (Nat.not_lt_zero _)
  | succ fuel ih =>
    intro input hlen
    rw [nextLine]
    by_cases he : (readLine input).2.2 = true
    · left
      simp [he]
    · have hf : (readLine input).2.2 = false := by simpa using he
      have hlt := readLine_eof_false hf
      simp only [he, if_false]
      by_cases hs : (readLine input).1.length = lengthNL (readLine input).1
      · simp only [hs, if_true]
        rcases ih (readLine input).2.1 (by omega) with h | ⟨line, rest, h, h1, h2⟩
        · left; exact h
        · right
          exact ⟨line, rest, h, by omega, by omega⟩
      · right
        refine ⟨_, _, ?_, readLine_length input, hlt⟩
        simp [hs]

theorem indexRune_lt {c : Char} : ∀ {l : List Char} {i : Nat},
    indexRune c l = some i → i < l.length := by
  intro l
  induction l with
  | nil => intro i h; simp [indexRune] at h
  | cons x xs ih =>
    intro i h
    by_cases hx : x = c
    · simp only [indexRune, hx, if_true, Option.some.injEq] at h
      subst h
      simp
    · simp only [indexRune, hx, if_false, Option.map_eq_some'] at h
      obtain ⟨j, hj, hij⟩ := h
      subst hij
      have := ih hj
      simp
      omega

theorem parseField_quotedField_total : ∀ (fuel : Nat),
    (∀ (line input : List Char) (fields : List (List Char)),
      line.length + input.length < fuel →
      ∃ record rest, parseField fuel line input fields = some (record, rest) ∧
        rest.length ≤ input.length) ∧
    (∀ (line input buf : List Char) (fields : List (List Char)),
      line.length + input.length < fuel →
      ∃ record rest, quotedField fuel line input buf fields = some (record, rest) ∧
        rest.length ≤ input.length) := by
  intro fuel
  induction fuel with
  | zero =>
    exact ⟨fun _ _ _ h => absurd h (Nat.not_lt_zero _),
      fun _ _ _ _ h => absurd h (Nat.not_lt_zero _)⟩
  | succ fuel ih =>
    obtain ⟨ihP, ihQ⟩ := ih
    constructor
    · intro line input fields hlen
      rw [parseField]
      by_cases hh : line.head? ≠ some dquote
      · rw [if_pos hh]
        cases hi : indexRune ',' line with
        | none => exact ⟨_, _, rfl, Nat.le_refl _⟩
        | some i =>
          have hlt := indexRune_lt hi
          exact ihP _ _ _ (by simp only [List.length_drop]; omega)
      · rw [if_neg hh]
        have hpos : 0 < line.length := by
          cases line with
          | nil => simp at hh
          | cons x xs => simp
        exact ihQ _ _ _ _ (by simp only [List.length_drop]; omega)
    · intro line input buf fields hlen
      rw [quotedField]
      cases hi : indexRune dquote line with
      | some i =>
        have hlt := indexRune_lt hi
        simp only
        split
        · exact ihQ _ _ _ _ (by simp only [List.length_drop]; omega)
        · split
          · exact ihP _ _ _ (by simp only [List.length_drop]; omega)
          · split
            · exact ⟨_, _, rfl, Nat.le_refl _⟩
            · exact ihQ _ _ _ _ (by simp only [List.length_drop]; omega)
      | none =>
        simp only
        by_cases hpos : line.length > 0
        · simp only [hpos, if_true]
          have h1 := readLine_length input
          have h2 := readLine_rest_le input
          obtain ⟨record, rest, h, hr⟩ :=
            ihQ (readLine input).1 (readLine input).2.1 (buf ++ line) fields (by omega)
          exact ⟨record, rest, h, by omega⟩
        · simp only [hpos, if_false]
          exact ⟨_, _, rfl, Nat.le_refl _⟩

theorem readRecord_total (input : List Char) :
    readRecord input = some none ∨
    ∃ record rest, readRecord input = some (some (record, rest)) ∧
      rest.length < input.length := by
  unfold readRecord
  rcases nextLine_total (input.length + 1) input (by omega) with h | ⟨line, rest, h, h1, h2⟩
  · left
    simp [h]
  · right
    obtain ⟨record, rest2, hp, hr⟩ :=
      (parseField_quotedField_total (line.length + rest.length + 1)).1 line rest []
        (by omega)
    refine ⟨record, rest2, ?_, by omega⟩
    simp [h, hp]

theorem readAllLoop_total : ∀ (fuel : Nat) (input : List Char) (fieldsPerRecord : Nat)
    (records : List (List (List Char))), input.length < fuel →
    readAllLoop fuel input fieldsPerRecord records ≠ none := by
  intro fuel
  induction fuel with
  | zero => intro input _ _ h; exact absurd h (Nat.not_lt_zero _)
  | succ fuel ih =>
    intro input fieldsPerRecord records hlen
    rw [readAllLoop]
    rcases readRecord_total input with h | ⟨record, rest, h, hr⟩
    · simp [h]
    · simp only [h]
      split
      · simp
      · exact ih _ _ _ (by omega)

/-- The embedding of `parseSetValues` returns a map on every input: the iteration bounds
of the reader loops are never exhausted. -/
theorem parseSetValues_total (setValues : String) :
    ∃ result, parseSetValues setValues = some result := by
  unfold parseSetValues
  have h := readAllLoop_total (setValues.data.length + 1) setValues.data 0 [] (by omega)
  cases hr : readAll setValues.data with
  | none => exact absurd hr h
  | some r =>
    cases r with
    | none => exact ⟨_, rfl⟩
    | some records => exact ⟨_, rfl⟩
/-! ## The claims -/

/-- C1: `mergeValues` key by key.  For a source whose keys are distinct, the value at `k`
after the merge is the merge of the two inner maps when `dest[k]` and `src[k]` are both
string-keyed mappings, `src[k]` when `k` is in `src` and they are not both such mappings,
and the old `dest[k]` when `k` is not in `src`; every key of the result is a key of `dest`
or of `src`. -/
theorem mergeValues_key_by_key (dest src : Mapping) (k : String)
    (hsrc : (Mapping.keys src).Nodup) :
    (∀ d s, dest.lookup k = some (.smap d) → src.lookup k = some (.smap s) →
      (mergeValues dest src).lookup k = some (.smap (mergeValues d s))) ∧
    (∀ v, src.lookup k = some v →
      (¬ ∃ d s, dest.lookup k = some (.smap d) ∧ v = .smap s) →
      (mergeValues dest src).lookup k = some v) ∧
    (src.lookup k = none → (mergeValues dest src).lookup k = dest.lookup k) ∧
    (k ∈ Mapping.keys (mergeValues dest src) →
      k ∈ Mapping.keys dest ∨ k ∈ Mapping.keys src) := by
  have key := lookup_mergeValues src dest k hsrc
  refine ⟨?_, ?_, ?_, ?_⟩
  · intro d s hd hs
    rw [key, hs]
    simp only
    rw [hd, mergedAt_smap]
  · intro v hv hb
    rw [key, hv]
    simp only
    rw [mergedAt_of_not_both hb]
  · intro hn
    rw [key, hn]
  · intro hk
    by_contra hc
    simp only [not_or] at hc
    have h1 := (Mapping.lookup_eq_none_iff k dest).mpr hc.1
    have h2 := (Mapping.lookup_eq_none_iff k src).mpr hc.2
    rw [h2, h1] at key
    exact (Mapping.lookup_eq_none_iff k _).mp key hk

/-- C1 at the two examples of the specification: merging a.x=1 into a.y=2 keeps both inner
keys, and merging the scalar a=5 into the mapping a.x=1 leaves the scalar. -/
theorem mergeValues_key_by_key_witness :
    (Mapping.keys (Mapping.ofList [("a", .smap (Mapping.ofList [("x", .int 1)]))])).Nodup ∧
    (mergeValues (Mapping.ofList [("a", .smap (Mapping.ofList [("y", .int 2)]))])
        (Mapping.ofList [("a", .smap (Mapping.ofList [("x", .int 1)]))])).lookup "a"
      = some (.smap (Mapping.ofList [("x", .int 1), ("y", .int 2)])) ∧
    mergeValues (Mapping.ofList [("a", .smap (Mapping.ofList [("y", .int 2)]))])
        (Mapping.ofList [("a", .smap (Mapping.ofList [("x", .int 1)]))])
      = Mapping.ofList [("a", .smap (Mapping.ofList [("x", .int 1), ("y", .int 2)]))] ∧
    mergeValues (Mapping.ofList [("a", .smap (Mapping.ofList [("x", .int 1)]))])
        (Mapping.ofList [("a", .int 5)])
      = Mapping.ofList [("a", .int 5)] :=
  ⟨by decide,
    (mergeValues_key_by_key
      (Mapping.ofList [("a", .smap (Mapping.ofList [("y", .int 2)]))])
      (Mapping.ofList [("a", .smap (Mapping.ofList [("x", .int 1)]))]) "a" (by decide)).1
      _ _ rfl rfl,
    rfl, rfl⟩

/-- C2: the code does not do what the claim says.  With a scalar or a sequence at
`path[0]` and a longer path, `setNestedValue` panics on the unchecked type assertion to
`map[interface{}]interface{}` instead of replacing the value by a fresh mapping. -/
theorem setNestedValue_panics_on_scalar :
    setNestedValue (Mapping.ofList [("a", .int 5)]) ["a", "b"] (.str "v") = none ∧
    setNestedValue (Mapping.ofList [("a", .str "s")]) ["a", "b"] (.str "v") = none ∧
    setNestedValue (Mapping.ofList [("a", .bool true)]) ["a", "b"] (.str "v") = none ∧
    setNestedValue (Mapping.ofList [("a", .seq [.int 1])]) ["a", "b"] (.str "v") = none ∧
    setNestedValue (Mapping.ofList [("a", .null)]) ["a", "b"] (.str "v")
      = some (Mapping.ofList [("a", .smap (Mapping.ofList [("b", .str "v")]))]) :=
  ⟨rfl, rfl, rfl, rfl, rfl⟩

/-- C3: `mergeValues` is idempotent in its source: on well-formed mappings, merging the
same source a second time changes nothing. -/
theorem mergeValues_idempotent (dest src : Mapping) (hd : dest.wf = true)
    (hs : src.wf = true) :
    mergeValues (mergeValues dest src) src = mergeValues dest src :=
  mergeValues_idem_aux (sizeOf src) dest src (Nat.le_refl _) hd hs

/-- C3 on a destination and a source with nested mappings, a sequence and a scalar. -/
theorem mergeValues_idempotent_witness :
    (Mapping.ofList [("a", .smap (Mapping.ofList [("y", .int 2)])), ("c", .int 0)]).wf = true ∧
    (Mapping.ofList [("a", .smap (Mapping.ofList [("x", .int 1)])),
        ("b", .seq [.str "s"]), ("c", .smap .nil)]).wf = true ∧
    mergeValues
      (mergeValues
        (Mapping.ofList [("a", .smap (Mapping.ofList [("y", .int 2)])), ("c", .int 0)])
        (Mapping.ofList [("a", .smap (Mapping.ofList [("x", .int 1)])),
          ("b", .seq [.str "s"]), ("c", .smap .nil)]))
      (Mapping.ofList [("a", .smap (Mapping.ofList [("x", .int 1)])),
        ("b", .seq [.str "s"]), ("c", .smap .nil)])
    = Mapping.ofList [("a", .smap (Mapping.ofList [("x", .int 1), ("y", .int 2)])),
        ("b", .seq [.str "s"]), ("c", .smap .nil)] :=
  ⟨rfl, rfl,
    mergeValues_idempotent
      (Mapping.ofList [("a", .smap (Mapping.ofList [("y", .int 2)])), ("c", .int 0)])
      (Mapping.ofList [("a", .smap (Mapping.ofList [("x", .int 1)])),
        ("b", .seq [.str "s"]), ("c", .smap .nil)]) rfl rfl⟩

/-- C4: load order.  For well-formed sources `a` and `b`, loading `a`, `b`, `b`, `a` into an
empty root gives the same tree as loading `b` and then `a`. -/
theorem loadAll_load_order (a b : Mapping) (ha : a.wf = true) (hb : b.wf = true) :
    loadAll [a, b, b, a] = loadAll [b, a] := by
  simp only [loadAll, loadValuesFile, List.foldl_cons, List.foldl_nil]
  rw [mergeValues_nil_left a (Mapping.sorted_of_wf ha),
    mergeValues_nil_left b (Mapping.sorted_of_wf hb),
    mergeValues_idem_aux (sizeOf b) a b (Nat.le_refl _) ha hb,
    mergeValues_again_aux (sizeOf a) a b (Nat.le_refl _) ha hb]

/-- C4 on two sources that disagree on the type of a key and share a nested mapping. -/
theorem loadAll_load_order_witness :
    (Mapping.ofList [("a", .smap (Mapping.ofList [("x", .int 1)])), ("b", .int 2)]).wf = true ∧
    (Mapping.ofList [("a", .smap (Mapping.ofList [("x", .int 7), ("y", .int 2)])),
        ("b", .smap (Mapping.ofList [("z", .int 3)]))]).wf = true ∧
    loadAll
      [Mapping.ofList [("a", .smap (Mapping.ofList [("x", .int 1)])), ("b", .int 2)],
       Mapping.ofList [("a", .smap (Mapping.ofList [("x", .int 7), ("y", .int 2)])),
        ("b", .smap (Mapping.ofList [("z", .int 3)]))],
       Mapping.ofList [("a", .smap (Mapping.ofList [("x", .int 7), ("y", .int 2)])),
        ("b", .smap (Mapping.ofList [("z", .int 3)]))],
       Mapping.ofList [("a", .smap (Mapping.ofList [("x", .int 1)])), ("b", .int 2)]]
    = Mapping.ofList
        [("a", .smap (Mapping.ofList [("x", .int 1), ("y", .int 2)])), ("b", .int 2)] :=
  ⟨rfl, rfl,
    (loadAll_load_order
      (Mapping.ofList [("a", .smap (Mapping.ofList [("x", .int 1)])), ("b", .int 2)])
      (Mapping.ofList [("a", .smap (Mapping.ofList [("x", .int 7), ("y", .int 2)])),
        ("b", .smap (Mapping.ofList [("z", .int 3)]))]) rfl rfl).trans rfl⟩

/-- C5: the code does not do what the claim says.  The reader treats a double quote as a
quote only at the start of a field, so in a="x,y",b=2 the value of a is cut at its comma and
keeps its opening quote; only a field quoted as a whole keeps its commas. -/
theorem parseSetValues_splits_quoted_value :
    parseSetValues "a=\"x,y\",b=2"
      = some (Mapping.ofList [("a", .str "\"x"), ("b", .str "2")]) ∧
    parseSetValues "\"a=x,y\",b=2"
      = some (Mapping.ofList [("a", .str "x,y"), ("b", .str "2")]) :=
  ⟨rfl, rfl⟩

/-- C6: the code does not do what the claim says.  The coercion of an interface-keyed
mapping asserts that every key is a string; with the integer key 1 the assertion panics, and
only a mapping whose keys are all strings is copied. -/
theorem setNestedValue_panics_on_integer_key :
    setNestedValue (Mapping.ofList [("a", .imap [(.int 1, .str "x")])]) ["a", "b"] (.str "v")
      = none ∧
    setNestedValue (Mapping.ofList [("a", .imap [(.str "1", .str "x")])]) ["a", "b"]
        (.str "v")
      = some (Mapping.ofList
          [("a", .smap (Mapping.ofList [("1", .str "x"), ("b", .str "v")]))]) :=
  ⟨rfl, rfl⟩

/-- C7: path creation.  On an empty root, `setNestedValue` with a non-empty path returns
exactly the single chain of mappings along the path, ending in the value. -/
theorem setNestedValue_creates_path (keys : List String) (v : Value) (h : keys ≠ []) :
    setNestedValue .nil keys v = some (chain keys v) :=
  setNestedValue_nil_chain keys v h

/-- C7 at the path a, b, c and at a path of length one. -/
theorem setNestedValue_creates_path_witness :
    setNestedValue .nil ["a", "b", "c"] (.str "v")
      = some (Mapping.ofList
          [("a", .smap (Mapping.ofList [("b", .smap (Mapping.ofList [("c", .str "v")]))]))]) ∧
    setNestedValue .nil ["a"] (.str "v") = some (Mapping.ofList [("a", .str "v")]) :=
  ⟨setNestedValue_creates_path ["a", "b", "c"] (.str "v") (by decide),
    setNestedValue_creates_path ["a"] (.str "v") (by decide)⟩

/-- C8: an override touches nothing off its path.  When `root[k]` is a string-keyed mapping
`child` and the remaining path is not empty, the call on `root` is the call on `child` with
the result stored at `k`: it fails exactly when the call on `child` does, and otherwise every
other key of `root` and every key of `child` other than the next segment is unchanged. -/
theorem setNestedValue_frame (root child : Mapping) (k : String) (rest : List String)
    (v : Value) (hrest : rest ≠ []) (hk : root.lookup k = some (.smap child)) :
    setNestedValue root (k :: rest) v
      = (setNestedValue child rest v).map (fun c => root.insert k (.smap c)) ∧
    ∀ r, setNestedValue root (k :: rest) v = some r →
      (∀ j, j ≠ k → r.lookup j = root.lookup j) ∧
      ∃ c, setNestedValue child rest v = some c ∧ r.lookup k = some (.smap c) ∧
        ∀ j, some j ≠ rest.head? → c.lookup j = child.lookup j := by
  cases rest with
  | nil => exact absurd rfl hrest
  | cons k2 rest2 =>
    have e : setNestedValue root (k :: k2 :: rest2) v
        = (setNestedValue child (k2 :: rest2) v).map (fun c => root.insert k (.smap c)) := by
      rw [setNestedValue_descend, hk]
      simp [childMap]
    refine ⟨e, ?_⟩
    intro r hr
    refine ⟨fun j hj => setNestedValue_off_path hr j hj, ?_⟩
    rw [e] at hr
    cases hc : setNestedValue child (k2 :: rest2) v with
    | none => simp [hc] at hr
    | some c =>
      simp only [hc, Option.map_some', Option.some.injEq] at hr
      refine ⟨c, rfl, ?_, ?_⟩
      · rw [← hr, Mapping.lookup_insert_self]
      · intro j hj
        apply setNestedValue_off_path hc
        intro e2
        apply hj
        simp [e2]

/-- C8 at the example of the specification: the sibling x of the new key b is kept. -/
theorem setNestedValue_frame_witness :
    setNestedValue (Mapping.ofList [("a", .smap (Mapping.ofList [("x", .int 1)]))])
        ["a", "b"] (.str "v")
      = some (Mapping.ofList
          [("a", .smap (Mapping.ofList [("b", .str "v"), ("x", .int 1)]))]) :=
  (setNestedValue_frame (Mapping.ofList [("a", .smap (Mapping.ofList [("x", .int 1)]))])
    (Mapping.ofList [("x", .int 1)]) "a" ["b"] (.str "v") (by decide) rfl).1

/-- C10: overrides on unrelated paths commute.  For non-empty paths `p` and `q`, neither a
prefix of the other, applying the override at `p` and then the one at `q` has the same
outcome, final tree or panic, as applying them in the other order. -/
theorem setNestedValue_comm (root : Mapping) (p q : List String) (v w : Value)
    (_hp : p ≠ []) (_hq : q ≠ []) (hpq : ¬ p <+: q) (hqp : ¬ q <+: p) :
    (setNestedValue root p v).bind (fun r => setNestedValue r q w)
      = (setNestedValue root q w).bind (fun r => setNestedValue r p v) :=
  setNestedValue_comm_aux p q root v w hpq hqp

/-- C10 on two paths that share their first segment. -/
theorem setNestedValue_comm_witness :
    (["a", "b"] ≠ [] ∧ ["a", "c", "d"] ≠ [] ∧ ¬ ["a", "b"] <+: ["a", "c", "d"] ∧
      ¬ ["a", "c", "d"] <+: ["a", "b"]) ∧
    (setNestedValue (Mapping.ofList [("a", .smap (Mapping.ofList [("x", .int 1)]))])
        ["a", "c", "d"] (.str "w")).bind (fun r => setNestedValue r ["a", "b"] (.str "v"))
      = some (Mapping.ofList [("a", .smap (Mapping.ofList
          [("b", .str "v"), ("c", .smap (Mapping.ofList [("d", .str "w")])),
           ("x", .int 1)]))]) :=
  ⟨⟨by decide, by decide, by decide, by decide⟩,
    (setNestedValue_comm (Mapping.ofList [("a", .smap (Mapping.ofList [("x", .int 1)]))])
      ["a", "b"] ["a", "c", "d"] (.str "v") (.str "w")
      (by decide) (by decide) (by decide) (by decide)).symm.trans rfl⟩
/-- C9: an override string with no double quote, carriage return or line feed parses to
the mapping of its plain reading: split at every comma, each piece cut at its first equals
sign, pieces without one dropped, a later piece winning, every value kept as a string. -/
theorem parseSetValues_unquoted (s : String) (hq : dquote ∉ s.data) (hcr : cr ∉ s.data)
    (hlf : lf ∉ s.data) : parseSetValues s = some (plainParse s) := by
  unfold parseSetValues plainParse plainPairs
  by_cases hne : s.data = []
  · simp [hne, readAll_nil, List.splitOn, List.splitOnP_nil, plainPair]
  · simp only [readAll_plain hne hq hlf hcr, List.foldl_cons, List.foldl_nil, foldl_setPair]

/-- C9, at the override string a.b=1,c=2. -/
theorem parseSetValues_unquoted_witness :
    (dquote ∉ "a.b=1,c=2".data ∧ cr ∉ "a.b=1,c=2".data ∧ lf ∉ "a.b=1,c=2".data) ∧
    parseSetValues "a.b=1,c=2" = some (plainParse "a.b=1,c=2") ∧
    plainPairs "a.b=1,c=2" = [("a.b", "1"), ("c", "2")] ∧
    parseSetValues "a=b=c" = some (Mapping.ofList [("a", .str "b=c")]) ∧
    (parseSetValues "a.b=1,c=2").bind (applySetValues .nil)
      = some (Mapping.ofList
          [("a", .smap (Mapping.ofList [("b", .str "1")])), ("c", .str "2")]) :=
  ⟨⟨by decide, by decide, by decide⟩,
    parseSetValues_unquoted "a.b=1,c=2" (by decide) (by decide) (by decide),
    by decide, rfl, rfl⟩
end Helmlet
